import Mathlib

/-
Verification development for the duplicate-file finder `app.py` (doppelganger).

The Python source is shallowly embedded:
 * Python exceptions are modelled with `Except PyErr`: a function that may
   raise returns `.error e`, and a caller without a `try` block propagates the
   error (aborting the rest of its own work), exactly as an uncaught Python
   exception does.
 * The filesystem is passed in explicitly: `os.walk` becomes a function from a
   root spelling to the listing the OS would produce, `os.path.getsize` a
   function from a path to `Except PyErr Nat`, file contents a function
   `String → Option (List Nat)` (`none` = unreadable), and the set of files
   that exist on disk a `List String` for `os.remove`.
 * Python `dict` (insertion ordered) is an association list; `list` is `List`;
   `list.remove` is `List.erase` guarded by the `ValueError` check;
   `lst[0]` on an empty list is `IndexError`.
 * Python `float` arithmetic on the megabyte statistics is modelled exactly
   in `ℚ` (the quantities involved are small integer multiples of 10⁻⁶).
-/

set_option autoImplicit false

/-- Python exception kinds raised by the code paths modelled here. -/
inductive PyErr where
  | attributeError
  | oserror (path : String)
  | indexError
  | valueError
  | keyError
  deriving DecidableEq, Repr

/-- Read a Python dict entry: first association-list entry with the given key
(Python dicts have unique keys, which the lemmas assume via `Nodup` on keys). -/
def dictGet {K V : Type} [DecidableEq K] (d : List (K × V)) (k : K) : Option V :=
  (d.find? (fun kv => decide (kv.1 = k))).map (fun kv => kv.2)

/-- In-place mutation of one dict entry's value (`d[k] = f d[k]`):
entries with key `k` get `f` applied, all others are unchanged. -/
def dictUpdate {K V : Type} [DecidableEq K] (d : List (K × V)) (k : K) (f : V → V) :
    List (K × V) :=
  d.map (fun kv => if kv.1 = k then (kv.1, f kv.2) else kv)

/-- Embeds `FileHasher.sha256` (`app.py` 19-42): open the file, stream it in
4096-byte chunks into a SHA-256 digest, and return `(digest, path)`.  The
streaming fold over chunks computes the digest of the full byte content, so the
digest is abstracted to a function of the whole content; `open` on an
unreadable/vanished file raises `OSError`, modelled by `fs path = none`. -/
def FileHasher_sha256 {H : Type} (digest : List Nat → H)
    (fs : String → Option (List Nat)) (file_path : String) :
    Except PyErr (H × String) :=
  match fs file_path with
  | none => .error (.oserror file_path)
  | some content => .ok (digest content, file_path)

/-- The signal vocabulary of class `WorkerSignals` (`app.py` 44-49): a worker
can emit `result` (a payload) and `finished`, and nothing else — in particular
there is no failure signal in the vocabulary. -/
inductive WorkerSignal (α : Type) where
  | result (r : α)
  | finished
  deriving DecidableEq, Repr

/-- Embeds `Worker.run` (`app.py` 66-73): call the wrapped function, then emit
`result` and `finished`.  There is no `try` block: if the function raises, the
exception escapes `run` before either `emit`, so a failed task emits no signal
at all (the worker thread itself survives and other queued tasks still run). -/
def Worker_run {α : Type} (func : Except PyErr α) : List (WorkerSignal α) :=
  match func with
  | .ok r => [.result r, .finished]
  | .error _ => []

/-- The signal stream of one hashing batch (`MainWindow.onCandidatesReceived`,
`app.py` 341-345): one `Worker` wrapping `FileHasher.sha256` per candidate.
Ordering between workers is unconstrained at runtime; the claims proved below
are about which signals occur, not their order. -/
def hashBatchSignals {H : Type} (digest : List Nat → H)
    (fs : String → Option (List Nat)) (candidates : List String) :
    List (WorkerSignal (H × String)) :=
  candidates.flatMap (fun c => Worker_run (FileHasher_sha256 digest fs c))

/-- The payloads delivered to the `result`-connected slot
(`MainWindow.onFileHasherResult` is connected to `signals.result`). -/
def resultsOf {α : Type} (sigs : List (WorkerSignal α)) : List α :=
  sigs.filterMap (fun s => match s with | .result r => some r | .finished => none)

/-- Embeds the aggregation step of `MainWindow.onFileHasherResult`
(`app.py` 460-465): create the dict entry if absent, then append the path. -/
def onFileHasherResult {K : Type} [DecidableEq K]
    (hashes : List (K × List String)) (r : K × String) : List (K × List String) :=
  match dictGet hashes r.1 with
  | some _ => dictUpdate hashes r.1 (fun v => v ++ [r.2])
  | none => hashes ++ [(r.1, [r.2])]

/-- The fingerprint → paths mapping after a stream of results has been folded
into `self.hashes` by `onFileHasherResult`, starting from the empty dict that
`onButtonFindDuplicatesClicked` resets to (`app.py` 359). -/
def aggregate {K : Type} [DecidableEq K] (results : List (K × String)) :
    List (K × List String) :=
  results.foldl onFileHasherResult []

/-- Embeds the completion counting of `MainWindow.onFileHasherResult`
(`app.py` 467-472): `hash_progress` is incremented once per delivered result. -/
def hash_progress {α : Type} (sigs : List (WorkerSignal α)) : Nat :=
  (resultsOf sigs).length

/-- The completion test `self.hash_progress == len(self.candidates)`
(`app.py` 470) that gates the call to `hashingDone`. -/
def hashingDoneFires {α : Type} (sigs : List (WorkerSignal α))
    (candidates : List String) : Bool :=
  hash_progress sigs == candidates.length

/-- Embeds the group-pruning/surfacing of `MainWindow.hashingDone`
(`app.py` 402-427): entries whose path list has length 1 are skipped and then
popped from `self.hashes`; the remaining entries are the groups inserted as
top-level items of the duplicates tree.  (The Qt tree construction itself and
the progress-bar wiring are view code and are not modelled.) -/
def hashingDoneSurface {K : Type} (hashes : List (K × List String)) :
    List (K × List String) :=
  hashes.filter (fun kv => decide (kv.2.length ≠ 1))

/-- Embeds the per-file extension-filter step inside `MainWindow.getCandidates`
(`app.py` 305-307).  With an empty extension list the check is skipped and the
file passes.  With a non-empty list the source evaluates
`os.path.splitext(name)[1].lower() in extensions.lower()`, where `extensions`
is a Python `list`, which has no `lower` method: the right operand raises
`AttributeError` before the membership test, whatever the file name is. -/
def extFilterStep (name : String) (extensions : List String) : Except PyErr Bool :=
  match name, extensions with
  | _, [] => .ok true
  | _, _ :: _ => .error .attributeError

/-- Models `os.path.join(root, name)` for the dirpath spellings that occur in
this development (no trailing separator on the left operand). -/
def joinPath (dir name : String) : String := dir ++ "/" ++ name

/-- The file paths contributed by one root in `MainWindow.getCandidates`
(`app.py` 302-313): `os.walk` (with its default `onerror=None`, so unreadable
directories are silently skipped by the OS iterator and a nonexistent root
yields nothing) produces `(dirpath, filenames)` listings, and each name is
joined onto its dirpath. -/
def walkFiles (walk : String → List (String × List String)) (root : String) :
    List String :=
  (walk root).flatMap (fun de => de.2.map (fun name => joinPath de.1 name))

/-- The full path-collection loop of `MainWindow.getCandidates` for the
empty-extension-filter configuration (a non-empty filter never reaches this
point: see `extFilterStep`), including the `os.path.islink` exclusion. -/
def collectPaths (walk : String → List (String × List String))
    (islink : String → Bool) (root_paths : List String) : List String :=
  (root_paths.flatMap (walkFiles walk)).filter (fun p => !islink p)

/-- Embeds `file_paths = list(set(file_paths))` (`app.py` 316): deduplication
of the collected path strings by exact string equality.  Python's set order is
unspecified; `List.dedup` is a representative with the same membership and the
same cardinality, and every claim proved below is order-independent. -/
def dedupStep (paths : List String) : List String := paths.dedup

/-- Embeds the stat loop of `MainWindow.getCandidates` (`app.py` 319-323):
`os.path.getsize` is called on each collected path in turn; it may raise
`OSError` (entry vanished, or no search permission on a parent directory), and
the loop has no `try` block, so the first failure aborts the whole method. -/
def statSizes (getsize : String → Except PyErr Nat) :
    List String → Except PyErr (List (String × Nat))
  | [] => .ok []
  | p :: rest =>
    match getsize p with
    | .error e => .error e
    | .ok n =>
      match statSizes getsize rest with
      | .error e => .error e
      | .ok l => .ok ((p, n) :: l)

/-- Embeds the body of the size-grouping loop (`app.py` 319-323): append the
path to the size's bucket, creating the bucket (at the end of the dict, as
Python insertion order does) when the size is new. -/
def addToSizeGroups :
    List (Nat × List String) → Nat → String → List (Nat × List String)
  | [], size, file_path => [(size, [file_path])]
  | (s, ps) :: rest, size, file_path =>
    if s = size then (s, ps ++ [file_path]) :: rest
    else (s, ps) :: addToSizeGroups rest size file_path

/-- The `file_sizes` dict of `MainWindow.getCandidates` built from the
(path, size) pairs of the deduplicated path list. -/
def file_sizes (pairs : List (String × Nat)) : List (Nat × List String) :=
  pairs.foldl (fun m pr => addToSizeGroups m pr.2 pr.1) []

/-- Embeds the final filter of `MainWindow.getCandidates` (`app.py` 326-327):
`self.candidates` receives exactly the members of the size buckets with more
than one element. -/
def candidatesOf (pairs : List (String × Nat)) : List String :=
  ((file_sizes pairs).filter (fun g => decide (1 < g.2.length))).flatMap (fun g => g.2)

/-- The bucket a size maps to in a size-group dict (empty if absent). -/
def sizeGroupOf (m : List (Nat × List String)) (s : Nat) : List String :=
  (dictGet m s).getD []

/-- The whole of `MainWindow.getCandidates` for the empty-extension-filter
configuration: collect, deduplicate, stat (first stat failure aborts), group by
size, keep multi-member buckets. -/
def getCandidates (walk : String → List (String × List String))
    (islink : String → Bool) (getsize : String → Except PyErr Nat)
    (root_paths : List String) : Except PyErr (List String) :=
  match statSizes getsize (dedupStep (collectPaths walk islink root_paths)) with
  | .error e => .error e
  | .ok pairs => .ok (candidatesOf pairs)

/-- Embeds the deletion loop of `RemoveSelectedDialog.accept` (`app.py`
105-112): `os.remove` each selected path in order.  `fs` is the list of paths
that currently exist and are deletable; `os.remove` on a missing (or
permission-denied) path raises `OSError`, and the loop has no `try` block, so
the exception aborts the loop and the remaining paths are never attempted. -/
def RemoveSelectedDialog_accept (fs : List String) :
    List String → Except PyErr (List String)
  | [] => .ok fs
  | p :: rest =>
    if p ∈ fs then RemoveSelectedDialog_accept (fs.erase p) rest
    else .error (.oserror p)

/-- The in-memory scan state mutated by the removal handler: `self.hashes`
(fingerprint → member paths) and `self.candidates`. -/
structure ScanState (K : Type) where
  hashes : List (K × List String)
  candidates : List String
  deriving DecidableEq, Repr

/-- Embeds one iteration of the loop in
`MainWindow.onButtonRemoveSelectedClicked` (`app.py` 259-270) for a selected
path item (a child of a group item, so `item.parent()` is truthy, and the Qt
tree mirrors `self.hashes`, so `parent.childCount()` after `removeChild` equals
the length of the group's path list after `list.remove`):
find the first hash whose member list contains the path (`[...][0]` raises
`IndexError` when there is none), remove the path from that list, and if the
group is down to at most one member, drop the group's tree item, `list.remove`
the group's first remaining member from `self.candidates` (`IndexError` if the
group is empty, `ValueError` if that member is not a candidate), and pop the
hash. -/
def removeUpdateOne {K : Type} [DecidableEq K] (st : ScanState K)
    (file_path : String) : Except PyErr (ScanState K) :=
  match (st.hashes.filter (fun kv => decide (file_path ∈ kv.2))).map (fun kv => kv.1) with
  | [] => .error .indexError
  | file_hash :: _ =>
    let hashes1 := dictUpdate st.hashes file_hash (fun v => v.erase file_path)
    match dictGet hashes1 file_hash with
    | none => .error .keyError
    | some grp =>
      if grp.length ≤ 1 then
        match grp with
        | [] => .error .indexError
        | survivor :: _ =>
          if survivor ∈ st.candidates then
            .ok ⟨hashes1.filter (fun kv => decide (kv.1 ≠ file_hash)),
                 st.candidates.erase survivor⟩
          else .error .valueError
      else .ok ⟨hashes1, st.candidates⟩

/-- The whole removal loop of `MainWindow.onButtonRemoveSelectedClicked`: the
selected paths are processed in order, and an exception in one iteration
aborts the loop (and everything after it in the handler). -/
def removeUpdateBatch {K : Type} [DecidableEq K] (st : ScanState K) :
    List String → Except PyErr (ScanState K)
  | [] => .ok st
  | p :: rest =>
    match removeUpdateOne st p with
    | .error e => .error e
    | .ok st1 => removeUpdateBatch st1 rest

/-- Embeds `MainWindow.update_duplicate_info` (`app.py` 437-453): a fresh fold
over the current `self.hashes`, accumulating `number_of_duplicates` as the sum
of `len(files) - 1` and `size_of_duplicates` as the sum of
`os.path.getsize(files[0]) * (len(files) - 1) / 1000000` megabytes (Python
float arithmetic modelled exactly in `ℚ`). -/
def update_duplicate_info {K : Type} (getsize : String → Nat)
    (hashes : List (K × List String)) : Nat × ℚ :=
  hashes.foldl
    (fun acc kv =>
      (acc.1 + (kv.2.length - 1),
       acc.2 + ((getsize (kv.2.headD "") * (kv.2.length - 1) : Nat) : ℚ) / 1000000))
    (0, 0)

/-- The tail of `MainWindow.onButtonRemoveSelectedClicked` after the dialog was
accepted: run the state-update loop, and only if it finishes without an
exception recompute the aggregate statistics with `update_duplicate_info`. -/
def onButtonRemoveSelectedUpdate {K : Type} [DecidableEq K]
    (getsize : String → Nat) (st : ScanState K) (selected : List String) :
    Except PyErr (ScanState K × (Nat × ℚ)) :=
  match removeUpdateBatch st selected with
  | .error e => .error e
  | .ok st1 => .ok (st1, update_duplicate_info getsize st1.hashes)

/-- Split a character list at every path separator. -/
def splitSlash : List Char → List (List Char)
  | [] => [[]]
  | c :: rest =>
    if c = '/' then [] :: splitSlash rest
    else
      match splitSlash rest with
      | [] => [[c]]
      | comp :: comps => (c :: comp) :: comps

/-- Rejoin path components with the separator. -/
def joinSlash : List (List Char) → List Char
  | [] => []
  | [comp] => comp
  | comp :: rest => comp ++ '/' :: joinSlash rest

/-- Models `os.path.normpath` on the absolute, `..`-free path spellings used
below: split on the separator and drop `.` and empty components.  This is the
"absolute canonical form" the spec's deduplication sentence talks about. -/
def normpath (p : String) : String :=
  String.mk ('/' :: joinSlash ((splitSlash p.toList).filter
    (fun comp => !(comp == ['.']) && !(comp == []))))

/-- The OS walk of a one-file filesystem (directory `/a` holding regular file
`x`), as `os.walk` reports it: any spelling that denotes `/a` is listed with
the dirpath spelled exactly as the caller gave it. -/
def walk9 (top : String) : List (String × List String) :=
  if normpath top = "/a" then [(top, ["x"])] else []

/-- The OS walk used for the stat-failure scenario: root `/a` holds regular
files `good` and `bad`; the root spelling `/missing` does not exist, so
`os.walk` on it yields nothing. -/
def walkEx (root : String) : List (String × List String) :=
  if root = "/a" then [("/a", ["good", "bad"])] else []

/-- The stat behaviour for the stat-failure scenario: `/a/bad` cannot be
stat-ed (permission revoked between listing and stat), everything else has
size 1. -/
def getsizeEx (p : String) : Except PyErr Nat :=
  if p = "/a/bad" then .error (.oserror "/a/bad") else .ok 1

/-- File contents for the hashing-failure scenario: three same-size candidates
`a`, `b`, `c`, of which `b` becomes unreadable before its hash task runs. -/
def fsEx (p : String) : Option (List Nat) :=
  if p = "a" then some [1] else if p = "c" then some [2] else none
/-- File contents for the size-prefilter witness: `a` and `b` share one byte
of content, `c` has two bytes. -/
def contentW (p : String) : List Nat := if p = "c" then [1, 2] else [0]

/-! ## Theorems -/

/-- C1: The spec's path-filter contract holds for the empty filter (every path
passes unconditionally), but for every non-empty filter the code does not
perform the lower-cased membership test at all: evaluating
`extensions.lower()` on a Python list raises `AttributeError`, so the
filtering step never terminates normally on a non-empty filter. -/
theorem extFilterStep_empty_ok_nonempty_raises :
    (∀ name, extFilterStep name [] = Except.ok true) ∧
    extFilterStep "x.jpg" [".jpg"] = Except.error PyErr.attributeError :=
  ⟨fun _ => rfl, rfl⟩

/-- C3: Deletion is not attempted independently per path.  With only `b` on
disk and the confirmed list `[a, b]`, `os.remove(a)` raises and the loop
aborts: `b` is never attempted (removing `b` alone would succeed), and the
caller gets a propagated exception, not a per-path outcome list. -/
theorem accept_aborts_on_first_failure :
    RemoveSelectedDialog_accept ["b"] ["a", "b"] = Except.error (PyErr.oserror "a") ∧
    RemoveSelectedDialog_accept ["b"] ["b"] = Except.ok [] :=
  ⟨rfl, rfl⟩

/-- C8: A nonexistent root (here `/missing`) contributes nothing and the walk
continues with the other roots, but a permission error while stating a single
entry does not merely skip that entry: `os.path.getsize` on `/a/bad` raises an
uncaught `OSError` and the whole of `getCandidates` aborts. -/
theorem stat_failure_aborts_scan :
    collectPaths walkEx (fun _ => false) ["/missing", "/a"] = ["/a/good", "/a/bad"] ∧
    getCandidates walkEx (fun _ => false) getsizeEx ["/missing", "/a"]
      = Except.error (PyErr.oserror "/a/bad") :=
  ⟨rfl, rfl⟩

/-- C9: Enumerated paths are not normalized to a canonical form before
deduplication.  Over a filesystem whose directory `/a` holds the single file
`x`, the overlapping-but-differently-spelled roots `/a` and `/a/.` make the
code emit two path strings for that one file (their canonical forms coincide),
so the claim "a file reachable from two differently spelled roots is emitted
exactly once" is false. -/
theorem dedup_misses_canonical_aliases :
    dedupStep (collectPaths walk9 (fun _ => false) ["/a", "/a/."]) = ["/a/x", "/a/./x"] ∧
    normpath "/a/x" = normpath "/a/./x" ∧
    (dedupStep (collectPaths walk9 (fun _ => false) ["/a", "/a/."])).length = 2 :=
  ⟨rfl, rfl, rfl⟩

/-- C9 (amended): deduplication is by exact string equality of the joined
paths, via set membership: the emitted list has no repeated string and keeps
exactly the collected strings.  (A file reachable under two identically
spelled roots is therefore emitted once, but no canonical normalization is
applied — see the counterexample.) -/
theorem dedupStep_exact_string_dedup (paths : List String) :
    (dedupStep paths).Nodup ∧ ∀ p, p ∈ dedupStep paths ↔ p ∈ paths :=
  ⟨List.nodup_dedup paths, fun _ => List.mem_dedup⟩

/-- C2: With three same-size candidates of which `b` is unreadable, the whole
signal stream of the batch is four signals: the two successful fingerprints
and their `finished` signals.  The failed task emits nothing — there is no
per-file failure signal (the signal vocabulary has none) — and although the
other fingerprints are produced and the failed file is absent from the
grouping, the completion test `hash_progress == len(candidates)` never fires:
the batch never reaches completion. -/
theorem hash_failure_stalls_batch :
    hashBatchSignals (fun l => l) fsEx ["a", "b", "c"]
      = [WorkerSignal.result ([1], "a"), WorkerSignal.finished,
         WorkerSignal.result ([2], "c"), WorkerSignal.finished] ∧
    resultsOf (hashBatchSignals (fun l => l) fsEx ["a", "b", "c"])
      = [([1], "a"), ([2], "c")] ∧
    aggregate (resultsOf (hashBatchSignals (fun l => l) fsEx ["a", "b", "c"]))
      = [([1], ["a"]), ([2], ["c"])] ∧
    hashingDoneFires (hashBatchSignals (fun l => l) fsEx ["a", "b", "c"])
      ["a", "b", "c"] = false :=
  ⟨rfl, rfl, rfl, rfl⟩

/-- C5 (counterexample): a successfully removed path is not removed from the
candidate state.  Removing `a` from the three-member group completes without
error, retracts `a` from the group, but leaves `a` in `self.candidates`. -/
theorem removal_keeps_removed_path_in_candidates :
    removeUpdateBatch (K := String) ⟨[("h", ["a", "b", "c"])], ["a", "b", "c"]⟩ ["a"]
      = Except.ok ⟨[("h", ["b", "c"])], ["a", "b", "c"]⟩ ∧
    "a" ∈ (ScanState.mk (K := String) [("h", ["b", "c"])] ["a", "b", "c"]).candidates :=
  ⟨rfl, by decide⟩

/-- C10: For a confirmed batch holding both members of a 2-member group, the
dialog's accept loop first deletes both files from disk; the subsequent state
update dissolves the group while processing the first member, so the
fingerprint lookup for the second member finds no group and raises
`IndexError`, and the aggregate-statistics recomputation never runs: the
in-memory update is not atomic with the disk deletions. -/
theorem whole_group_removal_not_atomic (fs : List String) (p1 p2 h : String)
    (getsize : String → Nat) (hne : p1 ≠ p2) (h1 : p1 ∈ fs) (h2 : p2 ∈ fs) :
    RemoveSelectedDialog_accept fs [p1, p2] = Except.ok ((fs.erase p1).erase p2) ∧
    onButtonRemoveSelectedUpdate getsize ⟨[(h, [p1, p2])], [p1, p2]⟩ [p1, p2]
      = Except.error PyErr.indexError := by
  have h2' : p2 ∈ fs.erase p1 := (List.mem_erase_of_ne hne.symm).mpr h2
  constructor
  · simp [RemoveSelectedDialog_accept, h1, h2']
  · have step1 : removeUpdateOne (K := String) ⟨[(h, [p1, p2])], [p1, p2]⟩ p1
        = Except.ok ⟨[], [p1]⟩ := by
      simp [removeUpdateOne, dictUpdate, dictGet, hne, List.erase_cons, hne.symm]
    have step2 : removeUpdateOne (K := String) ⟨[], [p1]⟩ p2
        = Except.error PyErr.indexError := by
      simp [removeUpdateOne]
    simp [onButtonRemoveSelectedUpdate, removeUpdateBatch, step1, step2]

/-- C10 (witness). -/
theorem whole_group_removal_not_atomic_witness :
    RemoveSelectedDialog_accept ["x", "y"] ["x", "y"]
        = Except.ok (((["x", "y"].erase "x")).erase "y") ∧
    onButtonRemoveSelectedUpdate (fun _ => 1)
        ⟨[("h", ["x", "y"])], ["x", "y"]⟩ ["x", "y"]
      = Except.error PyErr.indexError :=
  whole_group_removal_not_atomic ["x", "y"] "x" "y" "h" (fun _ => 1)
    (by decide) (by decide) (by decide)

/-! ### Dictionary and list helper lemmas -/

theorem keys_nodup_unique {K V : Type} {d : List (K × V)} {k : K} {v1 v2 : V}
    (hnd : (d.map Prod.fst).Nodup) (h1 : (k, v1) ∈ d) (h2 : (k, v2) ∈ d) : v1 = v2 := by
  induction d with
  | nil => cases h1
  | cons kv rest ih =>
    have hhead : kv.1 ∉ rest.map Prod.fst := (List.nodup_cons.mp (by simpa using hnd)).1
    have htail : (rest.map Prod.fst).Nodup := (List.nodup_cons.mp (by simpa using hnd)).2
    rcases List.mem_cons.mp h1 with e1 | m1
    · rcases List.mem_cons.mp h2 with e2 | m2
      · rw [← e1] at e2
        injection e2 with _ hv
        exact hv.symm
      · exfalso
        apply hhead
        rw [← e1]
        exact List.mem_map.mpr ⟨(k, v2), m2, rfl⟩
    · rcases List.mem_cons.mp h2 with e2 | m2
      · exfalso
        apply hhead
        rw [← e2]
        exact List.mem_map.mpr ⟨(k, v1), m1, rfl⟩
      · exact ih htail m1 m2

theorem dictGet_of_mem {K V : Type} [DecidableEq K] {d : List (K × V)} {k : K} {v : V}
    (hnd : (d.map Prod.fst).Nodup) (hm : (k, v) ∈ d) : dictGet d k = some v := by
  induction d with
  | nil => cases hm
  | cons kv rest ih =>
    have hhead : kv.1 ∉ rest.map Prod.fst := (List.nodup_cons.mp (by simpa using hnd)).1
    have htail : (rest.map Prod.fst).Nodup := (List.nodup_cons.mp (by simpa using hnd)).2
    rcases List.mem_cons.mp hm with e | m
    · rw [← e]
      simp [dictGet]
    · have hk : kv.1 ≠ k := by
        intro hkk
        exact hhead (hkk ▸ List.mem_map.mpr ⟨(k, v), m, rfl⟩)
      simpa [dictGet, List.find?_cons, hk] using ih htail m

theorem mem_of_dictGet {K V : Type} [DecidableEq K] {d : List (K × V)} {k : K} {v : V}
    (h : dictGet d k = some v) : (k, v) ∈ d := by
  unfold dictGet at h
  rcases hf : d.find? (fun kv => decide (kv.1 = k)) with _ | kv
  · rw [hf] at h
    cases h
  · rw [hf] at h
    have hv : kv.2 = v := by simpa using h
    have hm := List.mem_of_find?_eq_some hf
    have hk : kv.1 = k := by simpa using List.find?_some hf
    have : kv = (k, v) := by
      obtain ⟨k0, v0⟩ := kv
      simp_all
    rwa [this] at hm

theorem dictUpdate_keys {K V : Type} [DecidableEq K] (d : List (K × V)) (k : K) (f : V → V) :
    (dictUpdate d k f).map Prod.fst = d.map Prod.fst := by
  unfold dictUpdate
  rw [List.map_map]
  apply List.map_congr_left
  intro kv _
  by_cases h : kv.1 = k <;> simp [h]

theorem mem_dictUpdate_elim {K V : Type} [DecidableEq K] {d : List (K × V)} {k : K}
    {f : V → V} {kv' : K × V} (h : kv' ∈ dictUpdate d k f) :
    (kv' ∈ d ∧ kv'.1 ≠ k) ∨ (∃ v, (k, v) ∈ d ∧ kv' = (k, f v)) := by
  rcases List.mem_map.mp h with ⟨kv, hm, he⟩
  by_cases hk : kv.1 = k
  · right
    refine ⟨kv.2, ?_, ?_⟩
    · rw [← hk]
      simpa using hm
    · rw [← he]
      simp [hk]
  · left
    rw [← he]
    simp only [if_neg hk]
    exact ⟨hm, hk⟩

theorem dictGet_dictUpdate_self {K V : Type} [DecidableEq K] {d : List (K × V)} {k : K}
    {v : V} (f : V → V) (hnd : (d.map Prod.fst).Nodup) (hm : (k, v) ∈ d) :
    dictGet (dictUpdate d k f) k = some (f v) := by
  apply dictGet_of_mem
  · rw [dictUpdate_keys]
    exact hnd
  · exact List.mem_map.mpr ⟨(k, v), hm, by simp⟩

theorem exists_ne_of_one_lt_length {α : Type} {l : List α} (hnd : l.Nodup)
    (hl : 1 < l.length) {p : α} (hp : p ∈ l) : ∃ q ∈ l, q ≠ p := by
  match l, hnd, hl, hp with
  | a :: b :: t, hnd, _, hp =>
    have hab : a ≠ b := by
      intro e
      exact (List.nodup_cons.mp hnd).1 (e ▸ List.mem_cons_self b t)
    by_cases hap : a = p
    · exact ⟨b, by simp, fun e => hab (by rw [hap, e])⟩
    · exact ⟨a, by simp, hap⟩

theorem one_lt_length_of_two_mem {α : Type} {l : List α} {p q : α}
    (hp : p ∈ l) (hq : q ∈ l) (hne : p ≠ q) : 1 < l.length := by
  match l, hp, hq with
  | [a], hp, hq =>
    exfalso
    have h1 : p = a := List.mem_singleton.mp hp
    have h2 : q = a := List.mem_singleton.mp hq
    exact hne (h1.trans h2.symm)
  | a :: b :: t, _, _ => simp

/-! ### Size-group lemmas -/

theorem sizeGroupOf_nil (s : Nat) : sizeGroupOf [] s = [] := rfl

theorem sizeGroupOf_addToSizeGroups (m : List (Nat × List String)) (sz : Nat) (p : String)
    (s : Nat) :
    sizeGroupOf (addToSizeGroups m sz p) s
      = if s = sz then sizeGroupOf m s ++ [p] else sizeGroupOf m s := by
  induction m with
  | nil =>
    by_cases h : s = sz
    · subst h
      simp [addToSizeGroups, sizeGroupOf, dictGet]
    · have h' : ¬ sz = s := fun e => h e.symm
      simp [addToSizeGroups, sizeGroupOf, dictGet, h, h']
  | cons hd rest ih =>
    obtain ⟨s', ps⟩ := hd
    by_cases h1 : s' = sz
    · subst h1
      by_cases h2 : s = s'
      · subst h2
        simp [addToSizeGroups, sizeGroupOf, dictGet]
      · have h2' : ¬ s' = s := fun e => h2 e.symm
        simp [addToSizeGroups, sizeGroupOf, dictGet, h2, h2']
    · by_cases h3 : s' = s
      · subst h3
        have h4 : ¬ s' = sz := h1
        have h5 : ¬ sz = s' := fun e => h4 e.symm
        simp [addToSizeGroups, sizeGroupOf, dictGet, h4, h5]
      · simp only [addToSizeGroups, if_neg h1]
        have hred : ∀ t : List (Nat × List String),
            sizeGroupOf ((s', ps) :: t) s = sizeGroupOf t s := by
          intro t
          simp [sizeGroupOf, dictGet, List.find?_cons, h3]
        rw [hred, hred, ih]

theorem addToSizeGroups_keys (m : List (Nat × List String)) (sz : Nat) (p : String) :
    (addToSizeGroups m sz p).map Prod.fst
      = if sz ∈ m.map Prod.fst then m.map Prod.fst else m.map Prod.fst ++ [sz] := by
  induction m with
  | nil => simp [addToSizeGroups]
  | cons hd rest ih =>
    obtain ⟨s', ps⟩ := hd
    by_cases h : s' = sz
    · subst h
      simp [addToSizeGroups]
    · have h' : ¬ sz = s' := fun e => h e.symm
      by_cases h2 : sz ∈ rest.map Prod.fst <;>
        simp [addToSizeGroups, h, h', h2, ih]

theorem addToSizeGroups_keys_nodup {m : List (Nat × List String)} (sz : Nat) (p : String)
    (h : (m.map Prod.fst).Nodup) : ((addToSizeGroups m sz p).map Prod.fst).Nodup := by
  rw [addToSizeGroups_keys]
  by_cases hm : sz ∈ m.map Prod.fst
  · simpa [hm]
  · simp only [if_neg hm]
    refine List.Nodup.append h (List.nodup_singleton sz) ?_
    simpa [List.disjoint_singleton] using hm

theorem file_sizes_keys_nodup_aux (l : List (String × Nat)) (m : List (Nat × List String))
    (hm : (m.map Prod.fst).Nodup) :
    ((l.foldl (fun m pr => addToSizeGroups m pr.2 pr.1) m).map Prod.fst).Nodup := by
  induction l generalizing m with
  | nil => simpa
  | cons pr rest ih => exact ih _ (addToSizeGroups_keys_nodup _ _ hm)

theorem file_sizes_keys_nodup (pairs : List (String × Nat)) :
    ((file_sizes pairs).map Prod.fst).Nodup :=
  file_sizes_keys_nodup_aux pairs [] (by simp)

theorem sizeGroupOf_foldl (l : List (String × Nat)) (m : List (Nat × List String)) (s : Nat) :
    sizeGroupOf (l.foldl (fun m pr => addToSizeGroups m pr.2 pr.1) m) s
      = sizeGroupOf m s ++ (l.filter (fun pr => decide (pr.2 = s))).map Prod.fst := by
  induction l generalizing m with
  | nil => simp
  | cons pr rest ih =>
    simp only [List.foldl_cons]
    rw [ih, sizeGroupOf_addToSizeGroups]
    by_cases h : pr.2 = s
    · subst h
      simp [List.filter_cons, List.append_assoc]
    · have h' : ¬ s = pr.2 := fun e => h e.symm
      simp [List.filter_cons, h, h']

theorem sizeGroupOf_file_sizes (pairs : List (String × Nat)) (s : Nat) :
    sizeGroupOf (file_sizes pairs) s
      = (pairs.filter (fun pr => decide (pr.2 = s))).map Prod.fst := by
  have := sizeGroupOf_foldl pairs [] s
  simpa [file_sizes] using this

theorem file_sizes_entry_eq {pairs : List (String × Nat)} {kv : Nat × List String}
    (h : kv ∈ file_sizes pairs) :
    kv.2 = sizeGroupOf (file_sizes pairs) kv.1 := by
  have hm : (kv.1, kv.2) ∈ file_sizes pairs := by simpa using h
  have := dictGet_of_mem (file_sizes_keys_nodup pairs) hm
  simp [sizeGroupOf, this]

theorem mem_file_sizes_of_group_ne {m : List (Nat × List String)} {s : Nat}
    (h : sizeGroupOf m s ≠ []) : (s, sizeGroupOf m s) ∈ m := by
  unfold sizeGroupOf dictGet at *
  rcases hf : m.find? (fun kv => decide (kv.1 = s)) with _ | kv
  · rw [hf] at h
    simp at h
  · rw [hf] at h ⊢
    simp only [Option.map_some', Option.getD_some]
    have hm := List.mem_of_find?_eq_some hf
    have hk : kv.1 = s := by simpa using List.find?_some hf
    rw [← hk]
    simpa using hm

theorem mem_candidatesOf {pairs : List (String × Nat)} {p : String} :
    p ∈ candidatesOf pairs ↔
      ∃ s, 1 < (sizeGroupOf (file_sizes pairs) s).length ∧
        p ∈ sizeGroupOf (file_sizes pairs) s := by
  unfold candidatesOf
  simp only [List.mem_flatMap, List.mem_filter]
  constructor
  · rintro ⟨g, ⟨hg, hlen⟩, hp⟩
    refine ⟨g.1, ?_, ?_⟩
    · rw [← file_sizes_entry_eq hg]
      simpa using hlen
    · rw [← file_sizes_entry_eq hg]
      exact hp
  · rintro ⟨s, hlen, hp⟩
    have hne : sizeGroupOf (file_sizes pairs) s ≠ [] := by
      intro e
      rw [e] at hp
      cases hp
    exact ⟨(s, sizeGroupOf (file_sizes pairs) s),
      ⟨mem_file_sizes_of_group_ne hne, by simpa using hlen⟩, hp⟩

theorem sizeGroupOf_file_sizes_map (g : String → Nat) (paths : List String) (s : Nat) :
    sizeGroupOf (file_sizes (paths.map (fun q => (q, g q)))) s
      = paths.filter (fun q => decide (g q = s)) := by
  rw [sizeGroupOf_file_sizes, List.filter_map, List.map_map]
  simp [Function.comp_def]

/-- C4: A file is a hashing candidate exactly when some other enumerated file
has the same byte size (the candidate set is the union of the size buckets
with at least two members), and consequently any two distinct enumerated files
with identical content are both candidates: the size pre-filter never discards
a true duplicate pair.  (`paths` is the deduplicated enumeration, hence
duplicate-free; a file's size is the length of its byte content.) -/
theorem size_prefilter_correct (content : String → List Nat) (paths : List String)
    (hnd : paths.Nodup) :
    (∀ p, p ∈ candidatesOf (paths.map (fun q => (q, (content q).length))) ↔
        p ∈ paths ∧ ∃ q ∈ paths, q ≠ p ∧ (content q).length = (content p).length) ∧
    (∀ p q, p ∈ paths → q ∈ paths → p ≠ q → content p = content q →
        p ∈ candidatesOf (paths.map (fun r => (r, (content r).length))) ∧
        q ∈ candidatesOf (paths.map (fun r => (r, (content r).length)))) := by
  have hchar : ∀ p, p ∈ candidatesOf (paths.map (fun q => (q, (content q).length))) ↔
      p ∈ paths ∧ ∃ q ∈ paths, q ≠ p ∧ (content q).length = (content p).length := by
    intro p
    rw [mem_candidatesOf]
    constructor
    · rintro ⟨s, hlen, hp⟩
      rw [sizeGroupOf_file_sizes_map] at hlen hp
      have hps := List.mem_filter.mp hp
      have hsz : (content p).length = s := by simpa using hps.2
      have hfn : (paths.filter (fun q => decide ((content q).length = s))).Nodup :=
        hnd.filter _
      obtain ⟨q, hq, hqp⟩ := exists_ne_of_one_lt_length hfn hlen hp
      have hqf := List.mem_filter.mp hq
      refine ⟨hps.1, q, hqf.1, hqp, ?_⟩
      have hq2 : (content q).length = s := by simpa using hqf.2
      rw [hq2, hsz]
    · rintro ⟨hp, q, hq, hqp, hsz⟩
      refine ⟨(content p).length, ?_, ?_⟩
      · rw [sizeGroupOf_file_sizes_map]
        refine one_lt_length_of_two_mem (p := p) (q := q) ?_ ?_ (Ne.symm hqp)
        · exact List.mem_filter.mpr ⟨hp, by simp⟩
        · exact List.mem_filter.mpr ⟨hq, by simpa using hsz⟩
      · rw [sizeGroupOf_file_sizes_map]
        exact List.mem_filter.mpr ⟨hp, by simp⟩
  refine ⟨hchar, ?_⟩
  intro p q hp hq hpq hcont
  exact ⟨(hchar p).mpr ⟨hp, q, hq, Ne.symm hpq, by rw [hcont]⟩,
         (hchar q).mpr ⟨hq, p, hp, hpq, by rw [hcont]⟩⟩

/-- C4 (witness). -/
theorem size_prefilter_correct_witness :
    (∀ p, p ∈ candidatesOf ((["a", "b", "c"]).map (fun q => (q, (contentW q).length))) ↔
        p ∈ ["a", "b", "c"] ∧ ∃ q ∈ ["a", "b", "c"], q ≠ p ∧
          (contentW q).length = (contentW p).length) ∧
    (∀ p q, p ∈ ["a", "b", "c"] → q ∈ ["a", "b", "c"] → p ≠ q → contentW p = contentW q →
        p ∈ candidatesOf ((["a", "b", "c"]).map (fun r => (r, (contentW r).length))) ∧
        q ∈ candidatesOf ((["a", "b", "c"]).map (fun r => (r, (contentW r).length)))) :=
  size_prefilter_correct contentW ["a", "b", "c"] (by decide)

/-! ### Statistics lemmas -/

theorem update_duplicate_info_foldl {K : Type} (getsize : String → Nat)
    (l : List (K × List String)) (a : Nat) (b : ℚ) :
    l.foldl
        (fun acc kv =>
          (acc.1 + (kv.2.length - 1),
           acc.2 + ((getsize (kv.2.headD "") * (kv.2.length - 1) : Nat) : ℚ) / 1000000))
        (a, b)
      = (a + (l.map (fun kv => kv.2.length - 1)).sum,
         b + ((l.map (fun kv => getsize (kv.2.headD "") * (kv.2.length - 1))).sum : ℚ)
             / 1000000) := by
  induction l generalizing a b with
  | nil => simp
  | cons kv rest ih =>
    simp only [List.foldl_cons, List.map_cons, List.sum_cons]
    rw [ih]
    simp only [Prod.mk.injEq]
    constructor
    · omega
    · push_cast
      ring

/-- C6: Whenever the aggregate statistics are derived, `update_duplicate_info`
recomputes them fresh from the current group state (it is a pure fold over
`self.hashes` with zero-initialised accumulators): the redundant count equals
the sum over groups of `members - 1`, and the redundant size (tracked by the
code in megabytes, i.e. scaled by 10⁻⁶) equals the sum over groups of the
representative member's byte size times `members - 1`, the representative
being `files[0]`, an actual member of the group. -/
theorem update_duplicate_info_recomputed {K : Type} (getsize : String → Nat)
    (hashes : List (K × List String)) (hne : ∀ kv ∈ hashes, kv.2 ≠ []) :
    (update_duplicate_info getsize hashes).1
        = (hashes.map (fun kv => kv.2.length - 1)).sum ∧
    (update_duplicate_info getsize hashes).2 * 1000000
        = ((hashes.map (fun kv => getsize (kv.2.headD "") * (kv.2.length - 1))).sum : ℚ) ∧
    ∀ kv ∈ hashes, kv.2.headD "" ∈ kv.2 := by
  refine ⟨?_, ?_, ?_⟩
  · rw [update_duplicate_info, update_duplicate_info_foldl]
    simp
  · rw [update_duplicate_info, update_duplicate_info_foldl]
    simp only [zero_add]
    rw [div_mul_cancel₀]
    norm_num
  · intro kv hkv
    have h := hne kv hkv
    cases hc : kv.2 with
    | nil => exact absurd hc h
    | cons x t => simp [hc]

/-- C6 (witness). -/
theorem update_duplicate_info_recomputed_witness :
    (update_duplicate_info (fun _ => 5) [("h", ["a", "b"])]).1
        = ([("h", ["a", "b"])].map (fun kv => kv.2.length - 1)).sum ∧
    (update_duplicate_info (fun _ => 5) [("h", ["a", "b"])]).2 * 1000000
        = (([("h", ["a", "b"])].map
            (fun kv => (fun _ => 5 : String → Nat) (kv.2.headD "") * (kv.2.length - 1))).sum : ℚ) ∧
    ∀ kv ∈ [("h", ["a", "b"])], kv.2.headD "" ∈ kv.2 :=
  update_duplicate_info_recomputed (fun _ => 5) [("h", ["a", "b"])] (by decide)

/-! ### Removal-step lemmas -/

theorem removeUpdateOne_spec {K : Type} [DecidableEq K] {st : ScanState K} {h : K}
    {g : List String} {p : String}
    (hkeys : (st.hashes.map Prod.fst).Nodup)
    (hfilter : st.hashes.filter (fun kv => decide (p ∈ kv.2)) = [(h, g)])
    (hp : p ∈ g) (hg : g.Nodup)
    (hcand : ∀ q ∈ g, q ∈ st.candidates) :
    (g.length = 2 → ∃ s, g.erase p = [s] ∧ s ∈ g ∧ s ≠ p ∧
        removeUpdateOne st p = Except.ok
          ⟨(dictUpdate st.hashes h (fun v => v.erase p)).filter
              (fun kv => decide (kv.1 ≠ h)),
            st.candidates.erase s⟩) ∧
    (2 < g.length →
        removeUpdateOne st p = Except.ok
          ⟨dictUpdate st.hashes h (fun v => v.erase p), st.candidates⟩) := by
  have hmem : (h, g) ∈ st.hashes := by
    have hx : (h, g) ∈ st.hashes.filter (fun kv => decide (p ∈ kv.2)) := by
      rw [hfilter]
      exact List.mem_singleton_self _
    exact (List.mem_filter.mp hx).1
  have hget : dictGet (dictUpdate st.hashes h (fun v => v.erase p)) h
      = some (g.erase p) := dictGet_dictUpdate_self _ hkeys hmem
  have herase_len : (g.erase p).length = g.length - 1 := List.length_erase_of_mem hp
  have hbody : removeUpdateOne st p =
      (if (g.erase p).length ≤ 1 then
        match g.erase p with
        | [] => Except.error PyErr.indexError
        | survivor :: _ =>
          if survivor ∈ st.candidates then
            Except.ok ⟨(dictUpdate st.hashes h (fun v => v.erase p)).filter
                (fun kv => decide (kv.1 ≠ h)), st.candidates.erase survivor⟩
          else Except.error PyErr.valueError
       else Except.ok ⟨dictUpdate st.hashes h (fun v => v.erase p), st.candidates⟩) := by
    unfold removeUpdateOne
    rw [hfilter]
    dsimp only [List.map_cons, List.map_nil]
    rw [hget]
  constructor
  · intro h2
    have hlen1 : (g.erase p).length = 1 := by omega
    obtain ⟨s, hs⟩ := List.length_eq_one.mp hlen1
    have hsg : s ∈ g := List.mem_of_mem_erase (hs ▸ List.mem_singleton_self s)
    have hsp : s ≠ p := by
      intro e
      have hin : s ∈ g.erase p := hs ▸ List.mem_singleton_self s
      rw [e] at hin
      exact ((List.Nodup.mem_erase_iff hg).mp hin).1 rfl
    refine ⟨s, hs, hsg, hsp, ?_⟩
    rw [hbody, hs]
    simp [hcand s hsg]
  · intro hgt
    rw [hbody, if_neg (by omega)]

/-- C5 (amended): for each successfully processed removed path, the path is
retracted from its duplicate group but stays in the candidate list; when the
group's membership falls to exactly 1, the group is dissolved entirely and its
sole remaining member (not the removed path) is removed from the candidate
set; when the group keeps 2 or more members, the candidate list is untouched.
Hypotheses: dict keys are unique, the removed path lies in exactly the group
`(h, g)`, the group is duplicate-free with at least 2 members whose paths are
all candidates, and the candidate list is duplicate-free. -/
theorem removeUpdate_amended {K : Type} [DecidableEq K] (st : ScanState K) (h : K)
    (g : List String) (p : String)
    (hkeys : (st.hashes.map Prod.fst).Nodup)
    (hfilter : st.hashes.filter (fun kv => decide (p ∈ kv.2)) = [(h, g)])
    (hp : p ∈ g) (hg : g.Nodup) (hlen : 2 ≤ g.length)
    (hcand : ∀ q ∈ g, q ∈ st.candidates) (hcnd : st.candidates.Nodup) :
    ∃ st' : ScanState K,
      removeUpdateOne st p = Except.ok st' ∧
      (∀ kv ∈ st'.hashes, p ∉ kv.2) ∧
      (p ∈ st.candidates → p ∈ st'.candidates) ∧
      (g.length = 2 → (∀ kv ∈ st'.hashes, kv.1 ≠ h) ∧
          ∀ q ∈ g, q ≠ p → q ∉ st'.candidates) ∧
      (2 < g.length → st'.candidates = st.candidates) := by
  obtain ⟨spec2, specGt⟩ := removeUpdateOne_spec hkeys hfilter hp hg hcand
  have hmem : (h, g) ∈ st.hashes := by
    have hx : (h, g) ∈ st.hashes.filter (fun kv => decide (p ∈ kv.2)) := by
      rw [hfilter]
      exact List.mem_singleton_self _
    exact (List.mem_filter.mp hx).1
  have honly : ∀ kv ∈ st.hashes, p ∈ kv.2 → kv = (h, g) := by
    intro kv hkv hpkv
    have hx : kv ∈ st.hashes.filter (fun kv => decide (p ∈ kv.2)) :=
      List.mem_filter.mpr ⟨hkv, by simpa using hpkv⟩
    rw [hfilter] at hx
    simpa using hx
  have hnoterase : p ∉ g.erase p := fun hin =>
    ((List.Nodup.mem_erase_iff hg).mp hin).1 rfl
  rcases Nat.lt_or_ge 2 g.length with hgt | hle
  · refine ⟨_, specGt hgt, ?_, fun hpc => hpc, ?_, fun _ => rfl⟩
    · intro kv hkv
      have hkv1 : kv ∈ dictUpdate st.hashes h (fun v => v.erase p) := hkv
      rcases mem_dictUpdate_elim hkv1 with ⟨hkv0, hkne⟩ | ⟨v, hv, hkveq⟩
      · intro hpin
        exact hkne (by rw [honly kv hkv0 hpin])
      · have hvg : v = g := keys_nodup_unique hkeys hv hmem
        rw [hkveq, hvg]
        exact hnoterase
    · intro h2
      exact absurd h2 (by omega)
  · have h2 : g.length = 2 := le_antisymm hle hlen
    obtain ⟨s, hs, hsg, hsp, heval⟩ := spec2 h2
    refine ⟨_, heval, ?_, ?_, ?_, ?_⟩
    · intro kv hkv
      have hkv1 : kv ∈ (dictUpdate st.hashes h (fun v => v.erase p)).filter
          (fun kv => decide (kv.1 ≠ h)) := hkv
      have hkv' := List.mem_filter.mp hkv1
      rcases mem_dictUpdate_elim hkv'.1 with ⟨hkv0, hkne⟩ | ⟨v, hv, hkveq⟩
      · intro hpin
        exact hkne (by rw [honly kv hkv0 hpin])
      · exfalso
        have hne : kv.1 ≠ h := by simpa using hkv'.2
        exact hne (by rw [hkveq])
    · intro hpc
      exact (List.mem_erase_of_ne (Ne.symm hsp)).mpr hpc
    · intro _
      constructor
      · intro kv hkv
        have hkv1 : kv ∈ (dictUpdate st.hashes h (fun v => v.erase p)).filter
            (fun kv => decide (kv.1 ≠ h)) := hkv
        simpa using (List.mem_filter.mp hkv1).2
      · intro q hq hqp
        have hqs : q = s := by
          have hin : q ∈ g.erase p := (List.Nodup.mem_erase_iff hg).mpr ⟨hqp, hq⟩
          rw [hs] at hin
          simpa using hin
        rw [hqs]
        intro hmem2
        exact ((List.Nodup.mem_erase_iff hcnd).mp hmem2).1 rfl
    · intro hgt
      exact absurd hgt (by omega)

/-- C5 (witness for the amended theorem). -/
theorem removeUpdate_amended_witness :
    ∃ st' : ScanState String,
      removeUpdateOne ⟨[("h", ["a", "b"])], ["a", "b"]⟩ "a" = Except.ok st' ∧
      (∀ kv ∈ st'.hashes, "a" ∉ kv.2) ∧
      ("a" ∈ (ScanState.mk (K := String) [("h", ["a", "b"])] ["a", "b"]).candidates →
          "a" ∈ st'.candidates) ∧
      ((["a", "b"] : List String).length = 2 → (∀ kv ∈ st'.hashes, kv.1 ≠ "h") ∧
          ∀ q ∈ (["a", "b"] : List String), q ≠ "a" → q ∉ st'.candidates) ∧
      (2 < (["a", "b"] : List String).length →
          st'.candidates
            = (ScanState.mk (K := String) [("h", ["a", "b"])] ["a", "b"]).candidates) :=
  removeUpdate_amended ⟨[("h", ["a", "b"])], ["a", "b"]⟩ "h" ["a", "b"] "a"
    (by decide) (by decide) (by decide) (by decide) (by decide) (by decide) (by decide)

theorem aggregate_groups_nonempty_aux {K : Type} [DecidableEq K]
    (l : List (K × String)) (m : List (K × List String))
    (hm : ∀ kv ∈ m, kv.2 ≠ []) :
    ∀ kv ∈ l.foldl onFileHasherResult m, kv.2 ≠ [] := by
  induction l generalizing m with
  | nil => exact hm
  | cons r rest ih =>
    simp only [List.foldl_cons]
    apply ih
    intro kv hkv
    unfold onFileHasherResult at hkv
    rcases hdg : dictGet m r.1 with _ | v
    · rw [hdg] at hkv
      rcases List.mem_append.mp hkv with hm1 | hm2
      · exact hm kv hm1
      · have : kv = (r.1, [r.2]) := by simpa using hm2
        rw [this]
        simp
    · rw [hdg] at hkv
      rcases mem_dictUpdate_elim hkv with ⟨h1, _⟩ | ⟨v', _, he⟩
      · exact hm kv h1
      · rw [he]
        simp

theorem aggregate_groups_nonempty {K : Type} [DecidableEq K] (results : List (K × String)) :
    ∀ kv ∈ aggregate results, kv.2 ≠ [] :=
  aggregate_groups_nonempty_aux results [] (by simp)

/-- C7: Wherever duplicate groups are surfaced, every active group has at
least 2 member paths.  At scan completion, `hashingDone` skips and prunes the
length-1 entries of the aggregated mapping (whose entries are all nonempty, as
every entry is created with its first path), so every surfaced group has ≥2
members; and the removal handler preserves the ≥2 invariant: whichever state a
successful per-path update step produces, all remaining groups still have ≥2
members (the group that fell to 1 was dissolved, not surfaced). -/
theorem active_groups_have_two_members {K : Type} [DecidableEq K]
    (results : List (K × String)) (st : ScanState K) (h : K) (g : List String)
    (p : String)
    (hkeys : (st.hashes.map Prod.fst).Nodup)
    (hfilter : st.hashes.filter (fun kv => decide (p ∈ kv.2)) = [(h, g)])
    (hp : p ∈ g) (hg : g.Nodup) (hlen : 2 ≤ g.length)
    (hcand : ∀ q ∈ g, q ∈ st.candidates)
    (hinv : ∀ kv ∈ st.hashes, 2 ≤ kv.2.length) :
    (∀ kv ∈ hashingDoneSurface (aggregate results), 2 ≤ kv.2.length) ∧
    (∀ st', removeUpdateOne st p = Except.ok st' → ∀ kv ∈ st'.hashes, 2 ≤ kv.2.length) := by
  constructor
  · intro kv hkv
    have hmf := List.mem_filter.mp hkv
    have hne := aggregate_groups_nonempty results kv hmf.1
    have hlen1 : kv.2.length ≠ 1 := by simpa using hmf.2
    have hlen0 : kv.2.length ≠ 0 := by
      intro e
      exact hne (List.length_eq_zero.mp e)
    omega
  · intro st' hstep kv hkv
    obtain ⟨spec2, specGt⟩ := removeUpdateOne_spec hkeys hfilter hp hg hcand
    have hmem : (h, g) ∈ st.hashes := by
      have hx : (h, g) ∈ st.hashes.filter (fun kv => decide (p ∈ kv.2)) := by
        rw [hfilter]
        exact List.mem_singleton_self _
      exact (List.mem_filter.mp hx).1
    have herase_len : (g.erase p).length = g.length - 1 := List.length_erase_of_mem hp
    rcases Nat.lt_or_ge 2 g.length with hgt | hle
    · rw [specGt hgt] at hstep
      injection hstep with hst
      subst hst
      have hkv1 : kv ∈ dictUpdate st.hashes h (fun v => v.erase p) := hkv
      rcases mem_dictUpdate_elim hkv1 with ⟨h1, _⟩ | ⟨v, hv, he⟩
      · exact hinv kv h1
      · have hvg : v = g := keys_nodup_unique hkeys hv hmem
        rw [he, hvg]
        simp only
        omega
    · have h2 : g.length = 2 := le_antisymm hle hlen
      obtain ⟨s, hs, hsg, hsp, heval⟩ := spec2 h2
      rw [heval] at hstep
      injection hstep with hst
      subst hst
      have hkv1 : kv ∈ (dictUpdate st.hashes h (fun v => v.erase p)).filter
          (fun kv => decide (kv.1 ≠ h)) := hkv
      have hkvf := List.mem_filter.mp hkv1
      rcases mem_dictUpdate_elim hkvf.1 with ⟨h1, _⟩ | ⟨v, hv, he⟩
      · exact hinv kv h1
      · exfalso
        have hne : kv.1 ≠ h := by simpa using hkvf.2
        exact hne (by rw [he])

/-- C7 (witness). -/
theorem active_groups_have_two_members_witness :
    (∀ kv ∈ hashingDoneSurface (aggregate [("k", "u"), ("k", "v")]), 2 ≤ kv.2.length) ∧
    (∀ st' : ScanState String,
        removeUpdateOne ⟨[("h", ["a", "b"])], ["a", "b"]⟩ "a" = Except.ok st' →
        ∀ kv ∈ st'.hashes, 2 ≤ kv.2.length) :=
  active_groups_have_two_members [("k", "u"), ("k", "v")]
    ⟨[("h", ["a", "b"])], ["a", "b"]⟩ "h" ["a", "b"] "a"
    (by decide) (by decide) (by decide) (by decide) (by decide) (by decide) (by decide)
